import Mathlib

/-!
Shallow embedding of the AutoPrognosis search-and-ensemble engine.

The repository's shown source consists of tutorial notebooks exercising the
engine (studies, plugin collections, serialization helpers) together with the
package configuration; the engine components themselves (Evaluator, Optimizer
Loop, Study Controller, Ensemble Selector, Plugin Registry) are described by
the specification and are modelled here from it, as marked on each definition.
Definitions translated from tutorial code in the repository are marked as such.

Conventions: metric scores and wall-clock durations are rationals; a metric's
dispersion is represented by its variance (the square of the standard
deviation), which is order-equivalent to the standard deviation for every
comparison the engine performs; a computation that can raise is a function
into `Option` or `Except`.
-/

namespace AutoPrognosis

/-- Scores and wall-clock durations are modelled as rationals. -/
abbrev Score : Type := ℚ

/-- Modelled from the spec: the worst-possible-value sentinel score that the
Evaluator records for a failed fold and the Optimizer Loop records for a
failed trial. -/
def sentinelScore : Score := 0

/-- Mean of a list of rationals (`0` for the empty list). -/
def listMean (l : List ℚ) : ℚ := l.sum / (l.length : ℚ)

/-- Dispersion (variance) of a list of rationals. -/
def listVar (l : List ℚ) : ℚ :=
  (l.map (fun x => (x - listMean l) ^ 2)).sum / (l.length : ℚ)

/-- Metric summary across folds: mean and dispersion (variance). -/
structure MetricSummary where
  mean : ℚ
  var : ℚ
deriving DecidableEq

/-- Modelled from the spec: the error value the Evaluator returns (rather than
raising) when every fold of one call fails. -/
inductive EvalError where
  | foldFailure
deriving DecidableEq

/-- Per-fold scores the Evaluator records for one call.  A fold is given as
`some s` (fit and score succeeded with score `s`) or `none` (fit or score
raised); a failed fold is kept, not dropped, with the sentinel score. -/
def recordedScores (folds : List (Option ℚ)) : List ℚ :=
  folds.map (fun f => f.getD sentinelScore)

/-- Modelled from the spec: `Evaluator.evaluate` over the per-fold outcomes of
one call.  Each failed fold is recorded with the sentinel score; if every fold
fails the call returns the fold-failure error value instead of raising; else
the mean and dispersion across the recorded fold scores are returned. -/
def evaluate (folds : List (Option ℚ)) : Except EvalError MetricSummary :=
  if folds.all (fun f => f.isNone) then .error .foldFailure
  else .ok ⟨listMean (recordedScores folds), listVar (recordedScores folds)⟩

/-- One proposed configuration as the Optimizer Loop observes it: the metric
summary its evaluation produced (`none` when the evaluation raised) and its
wall-clock cost. -/
structure Proposal where
  outcome : Option MetricSummary
  cost : ℚ
deriving DecidableEq

/-- A recorded trial: its monotonically increasing index in the history, the
metric summary, whether the evaluation succeeded, and its wall-clock cost. -/
structure Trial where
  index : ℕ
  summary : MetricSummary
  succeeded : Bool
  cost : ℚ
deriving DecidableEq

/-- The Optimizer Loop's budget: a maximum trial count and an optional
wall-clock limit. -/
structure Budget where
  maxTrials : ℕ
  timeLimit : Option ℚ
deriving DecidableEq

/-- Whether the optional wall-clock limit has been reached at `elapsed`. -/
def timeExceeded (b : Budget) (elapsed : ℚ) : Bool :=
  match b.timeLimit with
  | none => false
  | some t => decide (t ≤ elapsed)

/-- Record one proposal as a Trial: an evaluation that raised is caught and
recorded as a failed Trial carrying the sentinel score. -/
def mkTrial (i : ℕ) (p : Proposal) : Trial :=
  match p.outcome with
  | some s => ⟨i, s, true, p.cost⟩
  | none => ⟨i, ⟨sentinelScore, 0⟩, false, p.cost⟩

/-- Modelled from the spec: the body of `Optimizer.search`.  Proposals are
consumed sequentially; before each evaluation the loop stops if the trial-count
budget is exhausted or the wall-clock limit has been reached; otherwise the
proposal is evaluated (exceptions caught, see `mkTrial`), appended to the
history, and the loop continues with the elapsed clock advanced by the
proposal's cost. -/
def searchGo (b : Budget) : List Proposal → ℕ → ℚ → List Trial
  | [], _, _ => []
  | p :: ps, i, elapsed =>
    if b.maxTrials ≤ i then []
    else if timeExceeded b elapsed then []
    else mkTrial i p :: searchGo b ps (i + 1) (elapsed + p.cost)

/-- Modelled from the spec: `Optimizer.search` returns the full trial history
for the given stream of proposals under the given budget. -/
def search (ps : List Proposal) (b : Budget) : List Trial :=
  searchGo b ps 0 0

/-- Strictly-better comparison between trials, as the spec words it: higher
mean primary metric; ties broken by lower dispersion, remaining ties by
earlier trial index. -/
def trialBetter (a b : Trial) : Bool :=
  if a.summary.mean ≠ b.summary.mean then decide (b.summary.mean < a.summary.mean)
  else if a.summary.var ≠ b.summary.var then decide (a.summary.var < b.summary.var)
  else decide (a.index < b.index)

/-- The ranking key realised by `trialBetter`: lexicographically ordered by
descending mean, then ascending dispersion, then ascending index.  A trial is
strictly better exactly when its key is strictly smaller. -/
def trialKey (t : Trial) : ℚ ×ₗ (ℚ ×ₗ ℕ) :=
  toLex (-t.summary.mean, toLex (t.summary.var, t.index))

/-- Modelled from the spec: the deterministic best-trial selection over a
history: fold the history keeping the strictly better trial. -/
def bestTrial : List Trial → Option Trial
  | [] => none
  | t :: ts => some (ts.foldl (fun acc x => if trialBetter x acc then x else acc) t)

/-- A proposal with its outcome replaced by a raised evaluation; used to state
that failures never shorten the Optimizer Loop. -/
def scrubFail (p : Proposal) : Proposal := ⟨none, p.cost⟩

/-- A pipeline template's identity within the study's candidate enumeration. -/
abbrev TemplateId := ℕ

/-- The study configuration the controller is constructed with: the candidate
templates, the per-template trial and wall-clock budgets, the score threshold,
the fixed random seed and the ensemble-selection caps. -/
structure StudyConfig where
  templates : List TemplateId
  numIter : ℕ
  timeLimit : Option ℚ
  scoreThreshold : ℚ
  seed : ℕ
  ensembleMaxSize : ℕ
  ensembleMaxReps : ℕ
deriving DecidableEq

/-- The deterministic evaluation environment of a study: given the fixed
random seed and a template, the stream of proposal outcomes the Optimizer Loop
would observe (dataset, evaluator, surrogate and pseudo-random draws are all
deterministic functions of the seed). -/
abbrev Oracle := ℕ → TemplateId → List Proposal

/-- The best trial the Optimizer Loop finds for one template under the
configured per-template budget. -/
def templateBest (cfg : StudyConfig) (oracle : Oracle) (t : TemplateId) : Option Trial :=
  bestTrial (search (oracle cfg.seed t) ⟨cfg.numIter, cfg.timeLimit⟩)

/-- A Study Checkpoint: persisted state of one template's search — the
template's identity, its current best trial, and the completion mark. -/
structure Checkpoint where
  template : TemplateId
  best : Option Trial
  complete : Bool
deriving DecidableEq

/-- The Ensemble Model: an ordered list of (template, weight) members. -/
structure EnsembleModel where
  members : List (TemplateId × ℚ)
deriving DecidableEq

/-- The workspace directory for one study name: its checkpoint artifacts and
the final `model.p` artifact (if written). -/
structure Workspace where
  checkpoints : List Checkpoint
  modelFile : Option EnsembleModel
deriving DecidableEq

/-- A fresh workspace: no checkpoints, no `model.p`. -/
def emptyWorkspace : Workspace := ⟨[], none⟩

/-- The checkpoint the controller persists right after a template's search
completes: its best trial, marked complete. -/
def checkpointFor (cfg : StudyConfig) (oracle : Oracle) (t : TemplateId) : Checkpoint :=
  ⟨t, templateBest cfg oracle t, true⟩

/-- Look up a complete checkpoint for a template in the workspace. -/
def findComplete (ws : Workspace) (t : TemplateId) : Option Checkpoint :=
  ws.checkpoints.find? (fun c => c.template == t && c.complete)

/-- Result of the controller's pass over the candidate templates: the
per-template best trials, the final workspace, and the list of templates whose
search was actually (re-)run rather than reused from a checkpoint. -/
structure PassResult where
  results : List (TemplateId × Option Trial)
  ws : Workspace
  searched : List TemplateId

/-- Modelled from the spec: the Study Controller's outer loop.  For every
candidate template in order: if a checkpoint for it exists and is marked
complete, skip the search and reuse the stored best trial; otherwise invoke
the Optimizer Loop under the configured budget and immediately persist a
complete checkpoint, so that a crash after N templates resumes at N+1. -/
def runTemplates (cfg : StudyConfig) (oracle : Oracle) :
    List TemplateId → Workspace → PassResult
  | [], ws => ⟨[], ws, []⟩
  | t :: ts, ws =>
    match findComplete ws t with
    | some c =>
      let r := runTemplates cfg oracle ts ws
      ⟨(t, c.best) :: r.results, r.ws, r.searched⟩
    | none =>
      let cp := checkpointFor cfg oracle t
      let r := runTemplates cfg oracle ts ⟨ws.checkpoints ++ [cp], ws.modelFile⟩
      ⟨(t, cp.best) :: r.results, r.ws, t :: r.searched⟩

/-- Modelled from the spec: after all templates are evaluated, discard every
template whose best trial's primary metric falls below the score threshold
(a template with no best trial at all is likewise excluded). -/
def survivors (rs : List (TemplateId × Option Trial)) (thr : ℚ) :
    List (TemplateId × Trial) :=
  rs.filterMap (fun r =>
    match r.2 with
    | some tr => if tr.summary.mean < thr then none else some (r.1, tr)
    | none => none)

/-- The held-out ensemble scoring environment: maps a per-candidate copy-count
vector (aligned with the surviving candidate list) to the ensemble's held-out
score. -/
abbrev EnsScore := List ℕ → ℚ

/-- Add one more copy of candidate `i` to a copy-count vector. -/
def bumpAt (counts : List ℕ) (i : ℕ) : List ℕ :=
  counts.set i (counts.getD i 0 + 1)

/-- Compare one permitted addition against the best found so far, keeping
the one with the strictly higher resulting held-out score. -/
def considerAddition (escore : EnsScore) (counts : List ℕ) (i : ℕ) :
    Option (ℕ × ℚ) → Option (ℕ × ℚ)
  | none => some (i, escore (bumpAt counts i))
  | some (j, sj) =>
    if sj < escore (bumpAt counts i) then some (i, escore (bumpAt counts i))
    else some (j, sj)

/-- Scan of the candidate indices for the best permitted addition. -/
def bestAdditionGo (escore : EnsScore) (maxReps : ℕ) (counts : List ℕ) :
    List ℕ → Option (ℕ × ℚ) → Option (ℕ × ℚ)
  | [], acc => acc
  | i :: is, acc =>
    if counts.getD i 0 < maxReps then
      bestAdditionGo escore maxReps counts is (considerAddition escore counts i acc)
    else bestAdditionGo escore maxReps counts is acc

/-- Modelled from the spec: the single candidate whose addition most improves
the held-out ensemble score, respecting the per-candidate repeat cap; `none`
when no candidate may be added. -/
def bestAddition (escore : EnsScore) (maxReps : ℕ) (counts : List ℕ) :
    Option (ℕ × ℚ) :=
  bestAdditionGo escore maxReps counts (List.range counts.length) none

/-- Modelled from the spec: the greedy forward-selection loop.  Starting from
the empty ensemble, repeatedly add the best single addition; the very first
addition is unconditional (the best single candidate seeds the ensemble),
every later addition must strictly improve the current held-out score; stop
when no addition improves the score, no addition is permitted, or the maximum
ensemble size is reached. -/
def greedyGo (escore : EnsScore) (maxReps : ℕ) : ℕ → List ℕ → ℚ → List ℕ
  | 0, counts, _ => counts
  | fuel + 1, counts, cur =>
    match bestAddition escore maxReps counts with
    | none => counts
    | some (i, s) =>
      if counts.sum = 0 ∨ cur < s then greedyGo escore maxReps fuel (bumpAt counts i) s
      else counts

/-- Normalize a copy-count vector into ensemble weights summing to one. -/
def weightsOf (counts : List ℕ) : List ℚ :=
  counts.map (fun c : ℕ => (c : ℚ) / (counts.sum : ℚ))

/-- Modelled from the spec: `EnsembleSelector.select` over the surviving
candidates: greedy forward-selection of copy counts, then weights normalized
to sum to one, paired with the surviving templates in order. -/
def ensembleSelect (cands : List (TemplateId × Trial)) (escore : EnsScore)
    (maxSize maxReps : ℕ) : EnsembleModel :=
  let zero := List.replicate cands.length 0
  let counts := greedyGo escore maxReps maxSize zero (escore zero)
  ⟨(cands.zip (weightsOf counts)).map (fun z => (z.1.1, z.2))⟩

/-- Modelled from the spec: study-level error kinds. -/
inductive StudyError where
  | noQualifyingPipeline
deriving DecidableEq

/-- Outcome of `run()`: the returned result (the Ensemble Model, or the
specific study-level error), the final workspace, and the templates whose
search was actually run. -/
structure RunOutcome where
  result : Except StudyError EnsembleModel
  ws : Workspace
  searched : List TemplateId

/-- Modelled from the spec: `StudyController.run()`.  Process every candidate
template (reusing complete checkpoints, persisting new ones); discard the
templates below the score threshold; raise `NoQualifyingPipelineError` — and
write no `model.p` — when the surviving set is empty; otherwise hand the
survivors to the Ensemble Selector and persist the returned Ensemble Model as
`model.p`. -/
def run (cfg : StudyConfig) (oracle : Oracle) (escore : EnsScore)
    (ws : Workspace) : RunOutcome :=
  let r := runTemplates cfg oracle cfg.templates ws
  let ss := survivors r.results cfg.scoreThreshold
  if ss.isEmpty then ⟨.error .noQualifyingPipeline, r.ws, r.searched⟩
  else
    let em := ensembleSelect ss escore cfg.ensembleMaxSize cfg.ensembleMaxReps
    ⟨.ok em, ⟨r.ws.checkpoints, some em⟩, r.searched⟩

/-- The workspace left behind when a run is interrupted right after the k-th
template's checkpoint is written: the first k templates have been processed
from a fresh workspace. -/
def wsAfter (cfg : StudyConfig) (oracle : Oracle) (k : ℕ) : Workspace :=
  (runTemplates cfg oracle (cfg.templates.take k) emptyWorkspace).ws

/-- Decidable form of "every candidate template's best trial falls below the
score threshold" (a template with no trials counts as not qualifying). -/
def allBelowThreshold (cfg : StudyConfig) (oracle : Oracle) : Bool :=
  cfg.templates.all (fun t =>
    ((templateBest cfg oracle t).map
      (fun tr => decide (tr.summary.mean < cfg.scoreThreshold))).getD true)

/-- A fitted plugin's state: its list of (integer) fitted parameters. -/
abbrev Params := List ℤ

/-- Modelled from the spec: a plugin as the closed capability set the engine
depends on — predict/transform as a pure function of the fitted parameters,
and binary `save`/`load` serialization of the fitted state. -/
structure PluginImpl where
  predictFn : Params → List ℚ → List ℚ
  save : Params → Except String (List ℕ)
  load : List ℕ → Except String Params

/-- Binary encoding of one integer parameter: a sign byte and a magnitude. -/
def encodeInt (z : ℤ) : List ℕ := [if z < 0 then 1 else 0, z.natAbs]

/-- Binary encoding of a fitted parameter list. -/
def encodeParams : Params → List ℕ
  | [] => []
  | z :: zs => encodeInt z ++ encodeParams zs

/-- Decoding of a binary parameter blob; fails on a truncated blob. -/
def decodeParams : List ℕ → Except String Params
  | [] => .ok []
  | s :: n :: rest =>
    match decodeParams rest with
    | .error e => .error e
    | .ok zs => .ok ((if s = 0 then (n : ℤ) else -(n : ℤ)) :: zs)
  | [_] => .error "truncated"

/-- Modelled from the spec: a built-in prediction plugin — predicts by the
parameter-weighted input — with the standard binary serialization. -/
def linearPlugin : PluginImpl :=
  ⟨fun ps x => (ps.zip x).map (fun c => (c.1 : ℚ) * c.2),
   fun ps => .ok (encodeParams ps), decodeParams⟩

/-- Modelled from the spec: a built-in preprocessing plugin — scales the input
by its first fitted parameter — with the standard binary serialization. -/
def scalerPlugin : PluginImpl :=
  ⟨fun ps x => x.map (fun v => ((ps.headD 1 : ℤ) : ℚ) * v),
   fun ps => .ok (encodeParams ps), decodeParams⟩

/-- Translated from the tutorial notebook
`tutorials/plugins/tutorial_01_preprocessing_plugins.ipynb`: the custom
`custom_select_fpr` plugin registered at runtime, whose `save` and `load`
raise `NotImplemented("placeholder")`. -/
def customSelectFpr : PluginImpl :=
  ⟨fun _ x => x, fun _ => .error "placeholder", fun _ => .error "placeholder"⟩

/-- Modelled from the spec: registration error kinds. -/
inductive RegistryError where
  | duplicateName
deriving DecidableEq

/-- The Plugin Registry for one capability category: an ordered list of
(name, plugin) entries. -/
structure Registry where
  entries : List (String × PluginImpl)

/-- Look a plugin up by name; `none` when the name is absent. -/
def Registry.getPlugin (r : Registry) (name : String) : Option PluginImpl :=
  (r.entries.find? (fun e => e.1 == name)).map (fun e => e.2)

/-- The registered names of the collection, in registration order. -/
def Registry.names (r : Registry) : List String :=
  r.entries.map (fun e => e.1)

/-- Modelled from the spec: runtime registration; fails with
`DuplicateNameError` when the name is already registered in the category. -/
def Registry.add (r : Registry) (name : String) (p : PluginImpl) :
    Except RegistryError Registry :=
  if r.entries.any (fun e => e.1 == name) then .error .duplicateName
  else .ok ⟨r.entries ++ [(name, p)]⟩

/-- Modelled from the spec: the preprocessor collection as populated at
process start, before any runtime registration. -/
def defaultPreprocessors : Registry :=
  ⟨[("linear", linearPlugin), ("scaler", scalerPlugin)]⟩

/-- The registry after the tutorial's runtime registration of
`custom_select_fpr`. -/
def registryAfterTutorialAdd : Registry :=
  ⟨defaultPreprocessors.entries ++ [("custom_select_fpr", customSelectFpr)]⟩

/-- The serialization round-trip law of the spec for one plugin: saving any
fitted state and loading it back yields an object whose predict/transform
output on any input is identical to the original's. -/
def RoundTrips (p : PluginImpl) : Prop :=
  ∀ ps x, ∃ bs qs, p.save ps = .ok bs ∧ p.load bs = .ok qs ∧
    p.predictFn qs x = p.predictFn ps x

/-- A workspace is faithful to a study configuration when every complete
checkpoint it holds stores exactly the best trial the Optimizer Loop finds
for its template under that configuration. -/
def FaithfulWS (cfg : StudyConfig) (oracle : Oracle) (ws : Workspace) : Prop :=
  ∀ c ∈ ws.checkpoints, c.complete = true →
    c.best = templateBest cfg oracle c.template

/-- Every nonempty list of rationals has a least member. -/
theorem exists_min_of_ne_nil (l : List ℚ) (h : l ≠ []) :
    ∃ m ∈ l, ∀ x ∈ l, m ≤ x := by
  induction l with
  | nil => exact absurd rfl h
  | cons a t ih =>
    rcases eq_or_ne t [] with ht | ht
    · subst ht
      refine ⟨a, List.mem_singleton_self a, ?_⟩
      intro x hx
      rw [List.mem_singleton] at hx
      exact le_of_eq hx.symm
    · obtain ⟨m, hm, hmin⟩ := ih ht
      rcases le_total a m with hle | hle
      · refine ⟨a, List.mem_cons_self a t, ?_⟩
        intro x hx
        rcases List.mem_cons.mp hx with hx | hx
        · exact le_of_eq hx.symm
        · exact le_trans hle (hmin x hx)
      · refine ⟨m, List.mem_cons_of_mem a hm, ?_⟩
        intro x hx
        rcases List.mem_cons.mp hx with hx | hx
        · exact hx ▸ hle
        · exact hmin x hx

/-- Every nonempty list of rationals has a greatest member. -/
theorem exists_max_of_ne_nil (l : List ℚ) (h : l ≠ []) :
    ∃ m ∈ l, ∀ x ∈ l, x ≤ m := by
  induction l with
  | nil => exact absurd rfl h
  | cons a t ih =>
    rcases eq_or_ne t [] with ht | ht
    · subst ht
      refine ⟨a, List.mem_singleton_self a, ?_⟩
      intro x hx
      rw [List.mem_singleton] at hx
      exact le_of_eq hx
    · obtain ⟨m, hm, hmax⟩ := ih ht
      rcases le_total m a with hle | hle
      · refine ⟨a, List.mem_cons_self a t, ?_⟩
        intro x hx
        rcases List.mem_cons.mp hx with hx | hx
        · exact le_of_eq hx
        · exact le_trans (hmax x hx) hle
      · refine ⟨m, List.mem_cons_of_mem a hm, ?_⟩
        intro x hx
        rcases List.mem_cons.mp hx with hx | hx
        · exact hx ▸ hle
        · exact hmax x hx

/-- The mean of a nonempty list is at most any upper bound of the list. -/
theorem listMean_le_of_forall_le (l : List ℚ) (hne : l ≠ []) (hi : ℚ)
    (h : ∀ x ∈ l, x ≤ hi) : listMean l ≤ hi := by
  have hlen : 0 < (l.length : ℚ) := by
    exact_mod_cast List.length_pos.mpr hne
  have hsum : l.sum ≤ (l.length : ℚ) * hi := by
    have := List.sum_le_card_nsmul l hi h
    rwa [nsmul_eq_mul] at this
  rw [listMean, div_le_iff₀ hlen]
  linarith

/-- The mean of a nonempty list is at least any lower bound of the list. -/
theorem le_listMean_of_forall_le (l : List ℚ) (hne : l ≠ []) (lo : ℚ)
    (h : ∀ x ∈ l, lo ≤ x) : lo ≤ listMean l := by
  have hlen : 0 < (l.length : ℚ) := by
    exact_mod_cast List.length_pos.mpr hne
  have hsum : (l.length : ℚ) * lo ≤ l.sum := by
    have := List.card_nsmul_le_sum l lo h
    rwa [nsmul_eq_mul] at this
  rw [listMean, le_div_iff₀ hlen]
  linarith

/-- When every fold of a call fails, `evaluate` returns the fold-failure
error value. -/
theorem evaluate_eq_error (folds : List (Option ℚ)) (h : ∀ f ∈ folds, f = none) :
    evaluate folds = .error .foldFailure := by
  rw [evaluate, if_pos]
  rw [List.all_eq_true]
  intro f hf
  rw [h f hf]
  rfl

/-- When some fold of a call succeeds, `evaluate` returns the metric summary
over the recorded fold scores. -/
theorem evaluate_eq_ok (folds : List (Option ℚ)) (h : ∃ f ∈ folds, f ≠ none) :
    evaluate folds =
      .ok ⟨listMean (recordedScores folds), listVar (recordedScores folds)⟩ := by
  obtain ⟨f, hf, hne⟩ := h
  rw [evaluate, if_neg]
  intro hall
  rw [List.all_eq_true] at hall
  have := hall f hf
  rw [Option.isNone_iff_eq_none] at this
  exact hne this

/-- C5: in `Evaluator.evaluate`, a fold whose fit or score raises is recorded
with the worst-possible-value sentinel score and is not dropped from the
summary (every fold contributes exactly one recorded score); when all folds of
one call fail, the call returns the fold-failure error value rather than
raising; otherwise the call returns the metric summary over the recorded
scores. -/
theorem evaluator_fold_failure_semantics (folds : List (Option ℚ)) :
    (recordedScores folds).length = folds.length
    ∧ (∀ i : ℕ, folds[i]? = some none →
        (recordedScores folds)[i]? = some sentinelScore)
    ∧ ((∀ f ∈ folds, f = none) → evaluate folds = .error .foldFailure)
    ∧ ((∃ f ∈ folds, f ≠ none) →
        evaluate folds =
          .ok ⟨listMean (recordedScores folds), listVar (recordedScores folds)⟩) := by
  refine ⟨by simp [recordedScores], ?_, evaluate_eq_error folds, evaluate_eq_ok folds⟩
  intro i hi
  rw [recordedScores, List.getElem?_map, hi]
  rfl

/-- Witness for C5 at a concrete call: one successful fold and one failed
fold, and a call whose folds all fail. -/
theorem evaluator_fold_failure_semantics_witness :
    (recordedScores [some (1 : ℚ), none])[1]? = some sentinelScore
    ∧ evaluate [some (1 : ℚ), none] =
        .ok ⟨listMean (recordedScores [some (1 : ℚ), none]),
             listVar (recordedScores [some (1 : ℚ), none])⟩
    ∧ evaluate ([none, none] : List (Option ℚ)) = .error .foldFailure := by
  refine ⟨?_, ?_, ?_⟩
  · exact (evaluator_fold_failure_semantics [some (1 : ℚ), none]).2.1 1 (by decide)
  · exact (evaluator_fold_failure_semantics [some (1 : ℚ), none]).2.2.2 (by decide)
  · exact (evaluator_fold_failure_semantics ([none, none] : List (Option ℚ))).2.2.1
      (by decide)

/-- C9: for every Evaluator call with at least one successful fold, the
returned mean metric lies between the minimum and the maximum of the per-fold
scores recorded in that call (sentinel-scored failed folds included). -/
theorem evaluator_mean_within_fold_range (folds : List (Option ℚ))
    (h : ∃ f ∈ folds, f ≠ none) :
    ∃ lo ∈ recordedScores folds, ∃ hi ∈ recordedScores folds,
      (∀ x ∈ recordedScores folds, lo ≤ x ∧ x ≤ hi)
      ∧ evaluate folds =
          .ok ⟨listMean (recordedScores folds), listVar (recordedScores folds)⟩
      ∧ lo ≤ listMean (recordedScores folds)
      ∧ listMean (recordedScores folds) ≤ hi := by
  have hfne : folds ≠ [] := by
    obtain ⟨f, hf, _⟩ := h
    exact List.ne_nil_of_mem hf
  have hne : recordedScores folds ≠ [] := by
    rw [recordedScores]
    simpa using hfne
  obtain ⟨lo, hlo, hmin⟩ := exists_min_of_ne_nil (recordedScores folds) hne
  obtain ⟨hi, hhi, hmax⟩ := exists_max_of_ne_nil (recordedScores folds) hne
  refine ⟨lo, hlo, hi, hhi, fun x hx => ⟨hmin x hx, hmax x hx⟩, evaluate_eq_ok folds h,
    le_listMean_of_forall_le _ hne lo hmin, listMean_le_of_forall_le _ hne hi hmax⟩

/-- Witness for C9 at a concrete call with two successful folds and one
failed fold. -/
theorem evaluator_mean_within_fold_range_witness :
    ∃ lo ∈ recordedScores [some (1 : ℚ), some 2, none],
    ∃ hi ∈ recordedScores [some (1 : ℚ), some 2, none],
      (∀ x ∈ recordedScores [some (1 : ℚ), some 2, none], lo ≤ x ∧ x ≤ hi)
      ∧ evaluate [some (1 : ℚ), some 2, none] =
          .ok ⟨listMean (recordedScores [some (1 : ℚ), some 2, none]),
               listVar (recordedScores [some (1 : ℚ), some 2, none])⟩
      ∧ lo ≤ listMean (recordedScores [some (1 : ℚ), some 2, none])
      ∧ listMean (recordedScores [some (1 : ℚ), some 2, none]) ≤ hi :=
  evaluator_mean_within_fold_range [some (1 : ℚ), some 2, none] (by decide)

/-- The Optimizer Loop records at most `maxTrials - i` further trials when the
next trial index is `i`. -/
theorem searchGo_length_le_sub (b : Budget) :
    ∀ (ps : List Proposal) (i : ℕ) (e : ℚ),
      (searchGo b ps i e).length ≤ b.maxTrials - i := by
  intro ps
  induction ps with
  | nil => intro i e; simp [searchGo]
  | cons p ps ih =>
    intro i e
    simp only [searchGo]
    split_ifs with h1 h2
    · simp
    · simp
    · simp only [List.length_cons]
      have := ih (i + 1) (e + p.cost)
      omega

/-- The Optimizer Loop records at most one trial per proposal. -/
theorem searchGo_length_le_len (b : Budget) :
    ∀ (ps : List Proposal) (i : ℕ) (e : ℚ),
      (searchGo b ps i e).length ≤ ps.length := by
  intro ps
  induction ps with
  | nil => intro i e; simp [searchGo]
  | cons p ps ih =>
    intro i e
    simp only [searchGo]
    split_ifs with h1 h2
    · simp
    · simp
    · simp only [List.length_cons]
      have := ih (i + 1) (e + p.cost)
      omega

/-- The j-th recorded trial is exactly the j-th proposal recorded by
`mkTrial` at index `i + j`. -/
theorem searchGo_getElem (b : Budget) :
    ∀ (ps : List Proposal) (i : ℕ) (e : ℚ) (j : ℕ),
      j < (searchGo b ps i e).length →
      (searchGo b ps i e)[j]? = (ps[j]?).map (fun p => mkTrial (i + j) p) := by
  intro ps
  induction ps with
  | nil => intro i e j hj; simp [searchGo] at hj
  | cons p ps ih =>
    intro i e j hj
    simp only [searchGo] at hj ⊢
    split_ifs with h1 h2
    · simp only [if_pos h1] at hj; simp at hj
    · simp only [if_neg h1, if_pos h2] at hj; simp at hj
    · cases j with
      | zero => simp
      | succ j =>
        simp only [List.getElem?_cons_succ]
        simp only [if_neg h1, if_neg h2, List.length_cons] at hj
        have hj' : j < (searchGo b ps (i + 1) (e + p.cost)).length := by omega
        rw [ih (i + 1) (e + p.cost) j hj']
        have hidx : i + 1 + j = i + (j + 1) := by omega
        rw [hidx]

/-- Every recorded trial was started strictly within both budget limits: its
index is below the trial cap and the wall clock at its start (the elapsed
offset plus the costs of the earlier trials) is below any wall-clock limit. -/
theorem searchGo_within_budget (b : Budget) :
    ∀ (ps : List Proposal) (i : ℕ) (e : ℚ) (j : ℕ),
      j < (searchGo b ps i e).length →
      i + j < b.maxTrials ∧
      ∀ t, b.timeLimit = some t → e + ((ps.take j).map Proposal.cost).sum < t := by
  intro ps
  induction ps with
  | nil => intro i e j hj; simp [searchGo] at hj
  | cons p ps ih =>
    intro i e j hj
    simp only [searchGo] at hj
    split_ifs at hj with h1 h2
    · simp at hj
    · simp at hj
    · cases j with
      | zero =>
        refine ⟨by omega, ?_⟩
        intro t ht
        have : ¬ (t ≤ e) := by
          intro hle
          exact h2 (by simp [timeExceeded, ht, hle])
        simp only [List.take_zero, List.map_nil, List.sum_nil, add_zero]
        linarith [lt_of_not_le this]
      | succ j =>
        simp only [List.length_cons] at hj
        have hj' : j < (searchGo b ps (i + 1) (e + p.cost)).length := by omega
        obtain ⟨hcount, htime⟩ := ih (i + 1) (e + p.cost) j hj'
        refine ⟨by omega, ?_⟩
        intro t ht
        have := htime t ht
        simp only [List.take_succ_cons, List.map_cons, List.sum_cons]
        linarith

/-- When the loop stops before exhausting the proposal stream, it stopped at
a budget limit: the trial cap was reached, or the wall clock had reached the
limit at the stopping point. -/
theorem searchGo_stop_reason (b : Budget) :
    ∀ (ps : List Proposal) (i : ℕ) (e : ℚ),
      (searchGo b ps i e).length < ps.length →
      b.maxTrials ≤ (searchGo b ps i e).length + i ∨
      ∃ t, b.timeLimit = some t ∧
        t ≤ e + ((ps.take (searchGo b ps i e).length).map Proposal.cost).sum := by
  intro ps
  induction ps with
  | nil => intro i e h; simp [searchGo] at h
  | cons p ps ih =>
    intro i e h
    simp only [searchGo] at h ⊢
    split_ifs at h ⊢ with h1 h2
    · exact Or.inl (by simpa using h1)
    · refine Or.inr ?_
      rcases hb : b.timeLimit with _ | t
      · rw [timeExceeded, hb] at h2; simp at h2
      · refine ⟨t, rfl, ?_⟩
        rw [timeExceeded, hb] at h2
        simp only [decide_eq_true_eq] at h2
        simpa using h2
    · simp only [List.length_cons] at h ⊢
      have h' : (searchGo b ps (i + 1) (e + p.cost)).length < ps.length := by omega
      rcases ih (i + 1) (e + p.cost) h' with hc | ⟨t, ht, hle⟩
      · exact Or.inl (by omega)
      · refine Or.inr ⟨t, ht, ?_⟩
        simp only [List.take_succ_cons, List.map_cons, List.sum_cons]
        linarith

/-- A proposal whose evaluation raises is consumed exactly like a successful
one: replacing any set of outcomes by raised evaluations never changes how
many trials the loop records. -/
theorem searchGo_length_scrub (b : Budget) :
    ∀ (ps : List Proposal) (i : ℕ) (e : ℚ),
      (searchGo b (ps.map scrubFail) i e).length = (searchGo b ps i e).length := by
  intro ps
  induction ps with
  | nil => intro i e; simp
  | cons p ps ih =>
    intro i e
    simp only [List.map_cons, searchGo]
    split_ifs with h1 h2
    · rfl
    · rfl
    · simp only [List.length_cons]
      have : (scrubFail p).cost = p.cost := rfl
      rw [this, ih (i + 1) (e + p.cost)]

/-- A trial is strictly better exactly when its ranking key is strictly
smaller. -/
theorem trialBetter_iff (a b : Trial) :
    trialBetter a b = true ↔ trialKey a < trialKey b := by
  have hkey : trialKey a < trialKey b ↔
      (b.summary.mean < a.summary.mean ∨
        (a.summary.mean = b.summary.mean ∧
          (a.summary.var < b.summary.var ∨
            (a.summary.var = b.summary.var ∧ a.index < b.index)))) := by
    rw [trialKey, trialKey, Prod.Lex.lt_iff]
    simp only [Prod.Lex.lt_iff, neg_lt_neg_iff, neg_inj]
  rw [hkey, trialBetter]
  split_ifs with h1 h2
  · simp only [decide_eq_true_eq]
    constructor
    · exact fun h => Or.inl h
    · rintro (h | ⟨he, _⟩)
      · exact h
      · exact absurd he h1
  · have he : a.summary.mean = b.summary.mean := not_ne_iff.mp h1
    simp only [decide_eq_true_eq]
    constructor
    · exact fun h => Or.inr ⟨he, Or.inl h⟩
    · rintro (h | ⟨_, h | ⟨hv, _⟩⟩)
      · exact absurd h (by rw [he]; exact lt_irrefl _)
      · exact h
      · exact absurd hv h2
  · have he : a.summary.mean = b.summary.mean := not_ne_iff.mp h1
    have hv : a.summary.var = b.summary.var := not_ne_iff.mp h2
    simp only [decide_eq_true_eq]
    constructor
    · exact fun h => Or.inr ⟨he, Or.inr ⟨hv, h⟩⟩
    · rintro (h | ⟨_, h | ⟨_, h⟩⟩)
      · exact absurd h (by rw [he]; exact lt_irrefl _)
      · exact absurd h (by rw [hv]; exact lt_irrefl _)
      · exact h

/-- The fold inside `bestTrial` returns the accumulator or a list member, and
its key is a lower bound of the accumulator's key and all members' keys. -/
theorem foldl_best_spec :
    ∀ (ts : List Trial) (a : Trial),
      (ts.foldl (fun acc x => if trialBetter x acc then x else acc) a = a ∨
        ts.foldl (fun acc x => if trialBetter x acc then x else acc) a ∈ ts)
      ∧ trialKey (ts.foldl (fun acc x => if trialBetter x acc then x else acc) a) ≤
          trialKey a
      ∧ ∀ u ∈ ts,
          trialKey (ts.foldl (fun acc x => if trialBetter x acc then x else acc) a) ≤
            trialKey u := by
  intro ts
  induction ts with
  | nil => intro a; simp
  | cons t ts ih =>
    intro a
    rw [List.foldl_cons]
    obtain ⟨hmem, hle, hall⟩ := ih (if trialBetter t a then t else a)
    have hkey_a : trialKey (if trialBetter t a then t else a) ≤ trialKey a := by
      split_ifs with h
      · exact le_of_lt ((trialBetter_iff t a).mp h)
      · exact le_refl _
    have hkey_t : trialKey (if trialBetter t a then t else a) ≤ trialKey t := by
      split_ifs with h
      · exact le_refl _
      · exact le_of_not_lt (fun hlt => h ((trialBetter_iff t a).mpr hlt))
    refine ⟨?_, le_trans hle hkey_a, ?_⟩
    · rcases hmem with hm | hm
      · rw [hm]
        split_ifs with h
        · exact Or.inr (List.mem_cons_self t ts)
        · exact Or.inl rfl
      · exact Or.inr (List.mem_cons_of_mem t hm)
    · intro u hu
      rcases List.mem_cons.mp hu with rfl | hu
      · exact le_trans hle hkey_t
      · exact hall u hu

/-- On a nonempty history, `bestTrial` returns a member whose key is least:
the deterministic lexicographic optimum (highest mean, then lowest
dispersion, then earliest index). -/
theorem bestTrial_spec (h : List Trial) (hne : h ≠ []) :
    ∃ tr, bestTrial h = some tr ∧ tr ∈ h ∧ ∀ u ∈ h, trialKey tr ≤ trialKey u := by
  cases h with
  | nil => exact absurd rfl hne
  | cons t ts =>
    obtain ⟨hmem, hle, hall⟩ := foldl_best_spec ts t
    refine ⟨_, rfl, ?_, ?_⟩
    · rcases hmem with hm | hm
      · rw [hm]; exact List.mem_cons_self t ts
      · exact List.mem_cons_of_mem t hm
    · intro u hu
      rcases List.mem_cons.mp hu with rfl | hu
      · exact hle
      · exact hall u hu

/-- C7: the Optimizer Loop stops at the first budget limit reached — it never
exceeds the trial cap nor the proposal stream, every trial it records was
started strictly within both limits, and a stop before the stream is
exhausted means a limit was reached — and its best-trial selection is
deterministic: the returned trial is a history member that is optimal for the
lexicographic key (highest mean primary metric, ties broken by lower
dispersion, remaining ties by earlier trial index), so no history member is
strictly better. -/
theorem optimizer_budget_and_tiebreak (ps : List Proposal) (b : Budget) :
    (search ps b).length ≤ b.maxTrials
    ∧ (search ps b).length ≤ ps.length
    ∧ (∀ j : ℕ, j < (search ps b).length →
        j < b.maxTrials ∧
        ∀ t, b.timeLimit = some t → ((ps.take j).map Proposal.cost).sum < t)
    ∧ ((search ps b).length < ps.length →
        b.maxTrials ≤ (search ps b).length ∨
        ∃ t, b.timeLimit = some t ∧
          t ≤ ((ps.take (search ps b).length).map Proposal.cost).sum)
    ∧ (∀ a c : Trial, trialBetter a c = true ↔ trialKey a < trialKey c)
    ∧ (∀ h : List Trial, h ≠ [] →
        ∃ tr, bestTrial h = some tr ∧ tr ∈ h ∧
          (∀ u ∈ h, trialKey tr ≤ trialKey u) ∧
          ∀ u ∈ h, trialBetter u tr = false) := by
  refine ⟨?_, ?_, ?_, ?_, trialBetter_iff, ?_⟩
  · have := searchGo_length_le_sub b ps 0 0
    simpa [search] using this
  · simpa [search] using searchGo_length_le_len b ps 0 0
  · intro j hj
    have := searchGo_within_budget b ps 0 0 j (by simpa [search] using hj)
    refine ⟨by omega, ?_⟩
    intro t ht
    have h2 := this.2 t ht
    simpa [search] using h2
  · intro hlt
    have := searchGo_stop_reason b ps 0 0 (by simpa [search] using hlt)
    rcases this with hc | ⟨t, ht, hle⟩
    · exact Or.inl (by simpa [search] using hc)
    · exact Or.inr ⟨t, ht, by simpa [search] using hle⟩
  · intro h hne
    obtain ⟨tr, htr, hmem, hall⟩ := bestTrial_spec h hne
    refine ⟨tr, htr, hmem, hall, ?_⟩
    intro u hu
    have : ¬ trialBetter u tr = true := by
      intro hb
      exact absurd ((trialBetter_iff u tr).mp hb) (not_lt.mpr (hall u hu))
    simpa using this

/-- Witness for C7: the trial-cap bound at a concrete one-proposal search,
and the deterministic best-trial selection on a concrete two-trial history. -/
theorem optimizer_budget_and_tiebreak_witness :
    (search [⟨some ⟨(1 : ℚ), 0⟩, 1⟩] ⟨1, none⟩).length ≤ 1
    ∧ ∃ tr, bestTrial [⟨0, ⟨(1 : ℚ), 0⟩, true, 1⟩, ⟨1, ⟨(2 : ℚ), 0⟩, true, 1⟩] =
          some tr
        ∧ tr ∈ [⟨0, ⟨(1 : ℚ), 0⟩, true, 1⟩, ⟨1, ⟨(2 : ℚ), 0⟩, true, 1⟩]
        ∧ (∀ u ∈ [⟨0, ⟨(1 : ℚ), 0⟩, true, 1⟩, ⟨1, ⟨(2 : ℚ), 0⟩, true, 1⟩],
            trialKey tr ≤ trialKey u)
        ∧ ∀ u ∈ [⟨0, ⟨(1 : ℚ), 0⟩, true, 1⟩, ⟨1, ⟨(2 : ℚ), 0⟩, true, 1⟩],
            trialBetter u tr = false :=
  ⟨(optimizer_budget_and_tiebreak [⟨some ⟨(1 : ℚ), 0⟩, 1⟩] ⟨1, none⟩).1,
   (optimizer_budget_and_tiebreak [] ⟨0, none⟩).2.2.2.2.2
     [⟨0, ⟨(1 : ℚ), 0⟩, true, 1⟩, ⟨1, ⟨(2 : ℚ), 0⟩, true, 1⟩] (by decide)⟩

/-- C4: an exception raised by a single proposed configuration's evaluation
is caught and recorded as a failed trial carrying the sentinel score, and the
loop continues to the next proposal: replacing outcomes by raised evaluations
never changes how many trials are recorded, every recorded trial is the
corresponding proposal's record, and a raised evaluation's record is the
failed sentinel trial.  `search` is a total function into trial histories, so
no per-trial exception propagates out of the Optimizer Loop. -/
theorem optimizer_catches_trial_exceptions (ps : List Proposal) (b : Budget) :
    (search (ps.map scrubFail) b).length = (search ps b).length
    ∧ (∀ j : ℕ, j < (search ps b).length →
        (search ps b)[j]? = (ps[j]?).map (fun p => mkTrial j p))
    ∧ (∀ j : ℕ, ∀ p : Proposal, j < (search ps b).length → ps[j]? = some p →
        p.outcome = none →
        (search ps b)[j]? = some ⟨j, ⟨sentinelScore, 0⟩, false, p.cost⟩) := by
  refine ⟨by simpa [search] using searchGo_length_scrub b ps 0 0, ?_, ?_⟩
  · intro j hj
    have := searchGo_getElem b ps 0 0 j (by simpa [search] using hj)
    simpa [search] using this
  · intro j p hj hp hout
    have hg := searchGo_getElem b ps 0 0 j (by simpa [search] using hj)
    rw [search, hg, hp]
    simp [mkTrial, hout]

/-- Witness for C4 at a concrete search whose first proposal's evaluation
raises: the failed trial is recorded with the sentinel score and the loop
length matches the all-failures run. -/
theorem optimizer_catches_trial_exceptions_witness :
    (search ([⟨none, (1 : ℚ)⟩, ⟨some ⟨1, 0⟩, 1⟩].map scrubFail) ⟨5, none⟩).length =
      (search [⟨none, (1 : ℚ)⟩, ⟨some ⟨1, 0⟩, 1⟩] ⟨5, none⟩).length
    ∧ (search [⟨none, (1 : ℚ)⟩, ⟨some ⟨1, 0⟩, 1⟩] ⟨5, none⟩)[0]? =
        some ⟨0, ⟨sentinelScore, 0⟩, false, 1⟩ :=
  ⟨(optimizer_catches_trial_exceptions [⟨none, (1 : ℚ)⟩, ⟨some ⟨1, 0⟩, 1⟩] ⟨5, none⟩).1,
   (optimizer_catches_trial_exceptions [⟨none, (1 : ℚ)⟩, ⟨some ⟨1, 0⟩, 1⟩] ⟨5, none⟩).2.2
     0 ⟨none, (1 : ℚ)⟩ (by decide) (by decide) rfl⟩

/-- A complete checkpoint found in a faithful workspace stores the best trial
of its template. -/
theorem findComplete_faithful (cfg : StudyConfig) (oracle : Oracle)
    (ws : Workspace) (hf : FaithfulWS cfg oracle ws) (t : TemplateId)
    (c : Checkpoint) (h : findComplete ws t = some c) :
    c.best = templateBest cfg oracle t := by
  rw [findComplete] at h
  have hmem := List.mem_of_find?_eq_some h
  have hpred := List.find?_some h
  rw [Bool.and_eq_true] at hpred
  have ht : c.template = t := by simpa using hpred.1
  rw [← ht]
  exact hf c hmem hpred.2

/-- Appending the checkpoint the controller writes keeps a workspace
faithful. -/
theorem faithful_append (cfg : StudyConfig) (oracle : Oracle) (ws : Workspace)
    (h : FaithfulWS cfg oracle ws) (t : TemplateId) :
    FaithfulWS cfg oracle
      ⟨ws.checkpoints ++ [checkpointFor cfg oracle t], ws.modelFile⟩ := by
  intro c hc hcomp
  rcases List.mem_append.mp hc with hc | hc
  · exact h c hc hcomp
  · rw [List.mem_singleton] at hc
    subst hc
    rfl

/-- Processing templates from a faithful workspace yields, for every
template, exactly the best trial the Optimizer Loop finds for it — whether
reused from a checkpoint or freshly searched. -/
theorem runTemplates_results (cfg : StudyConfig) (oracle : Oracle) :
    ∀ (ts : List TemplateId) (ws : Workspace), FaithfulWS cfg oracle ws →
      (runTemplates cfg oracle ts ws).results =
        ts.map (fun t => (t, templateBest cfg oracle t)) := by
  intro ts
  induction ts with
  | nil => intro ws _; simp [runTemplates]
  | cons t ts ih =>
    intro ws hws
    cases hfc : findComplete ws t with
    | some c =>
      simp only [runTemplates, hfc, List.map_cons]
      rw [ih ws hws, findComplete_faithful cfg oracle ws hws t c hfc]
    | none =>
      simp only [runTemplates, hfc, List.map_cons]
      rw [ih ⟨ws.checkpoints ++ [checkpointFor cfg oracle t], ws.modelFile⟩
        (faithful_append cfg oracle ws hws t)]
      rfl

/-- The controller's pass never touches the `model.p` artifact. -/
theorem runTemplates_modelFile (cfg : StudyConfig) (oracle : Oracle) :
    ∀ (ts : List TemplateId) (ws : Workspace),
      (runTemplates cfg oracle ts ws).ws.modelFile = ws.modelFile := by
  intro ts
  induction ts with
  | nil => intro ws; rfl
  | cons t ts ih =>
    intro ws
    cases hfc : findComplete ws t with
    | some c => simp only [runTemplates, hfc]; exact ih ws
    | none =>
      simp only [runTemplates, hfc]
      exact ih ⟨ws.checkpoints ++ [checkpointFor cfg oracle t], ws.modelFile⟩

/-- The controller's pass preserves workspace faithfulness. -/
theorem runTemplates_faithful (cfg : StudyConfig) (oracle : Oracle) :
    ∀ (ts : List TemplateId) (ws : Workspace), FaithfulWS cfg oracle ws →
      FaithfulWS cfg oracle (runTemplates cfg oracle ts ws).ws := by
  intro ts
  induction ts with
  | nil => intro ws h; exact h
  | cons t ts ih =>
    intro ws hws
    cases hfc : findComplete ws t with
    | some c => simp only [runTemplates, hfc]; exact ih ws hws
    | none =>
      simp only [runTemplates, hfc]
      exact ih _ (faithful_append cfg oracle ws hws t)

/-- Checkpoint lookup in a workspace holding exactly the checkpoints of the
templates in `done`: it hits exactly the members of `done`. -/
theorem findComplete_map_done (cfg : StudyConfig) (oracle : Oracle) :
    ∀ (done : List TemplateId) (mf : Option EnsembleModel) (t : TemplateId),
      findComplete ⟨done.map (checkpointFor cfg oracle), mf⟩ t =
        if t ∈ done then some (checkpointFor cfg oracle t) else none := by
  intro done
  induction done with
  | nil => intro mf t; simp [findComplete]
  | cons d ds ih =>
    intro mf t
    by_cases hdt : d = t
    · subst hdt
      simp [findComplete, List.find?_cons, checkpointFor]
    · have htail := ih mf t
      simp only [findComplete] at htail ⊢
      simp only [List.map_cons]
      rw [List.find?_cons_of_neg _ (by simp [checkpointFor, hdt]), htail]
      by_cases hts : t ∈ ds
      · rw [if_pos hts, if_pos (List.mem_cons_of_mem d hts)]
      · have hnm : ¬ t ∈ d :: ds := by
          intro hmem
          rcases List.mem_cons.mp hmem with h' | h'
          · exact hdt h'.symm
          · exact hts h'
        rw [if_neg hts, if_neg hnm]

/-- Processing a nodup template list against a workspace holding exactly the
checkpoints of `done`: the templates re-searched are exactly those outside
`done`, and the final workspace holds exactly the checkpoints of `done`
followed by the newly searched templates. -/
theorem runTemplates_shape (cfg : StudyConfig) (oracle : Oracle) :
    ∀ (ts done : List TemplateId) (mf : Option EnsembleModel), ts.Nodup →
      (runTemplates cfg oracle ts
          ⟨done.map (checkpointFor cfg oracle), mf⟩).searched =
        ts.filter (fun t => decide (¬ t ∈ done))
      ∧ (runTemplates cfg oracle ts
          ⟨done.map (checkpointFor cfg oracle), mf⟩).ws.checkpoints =
        (done ++ ts.filter (fun t => decide (¬ t ∈ done))).map
          (checkpointFor cfg oracle) := by
  intro ts
  induction ts with
  | nil => intro done mf _; simp [runTemplates]
  | cons t ts ih =>
    intro done mf hnd
    have htts : t ∉ ts := (List.nodup_cons.mp hnd).1
    have hnd' : ts.Nodup := (List.nodup_cons.mp hnd).2
    have hfc := findComplete_map_done cfg oracle done mf t
    by_cases hmem : t ∈ done
    · rw [if_pos hmem] at hfc
      simp only [runTemplates, hfc]
      obtain ⟨hs, hc⟩ := ih done mf hnd'
      refine ⟨?_, ?_⟩
      · rw [hs, List.filter_cons]
        simp [hmem]
      · rw [hc, List.filter_cons]
        simp [hmem]
    · rw [if_neg hmem] at hfc
      simp only [runTemplates, hfc]
      have hws1 : (⟨(done.map (checkpointFor cfg oracle)) ++
            [checkpointFor cfg oracle t], mf⟩ : Workspace) =
          ⟨(done ++ [t]).map (checkpointFor cfg oracle), mf⟩ := by
        simp
      rw [hws1]
      obtain ⟨hs, hc⟩ := ih (done ++ [t]) mf hnd'
      have hfilter : ts.filter (fun x => decide (¬ x ∈ done ++ [t])) =
          ts.filter (fun x => decide (¬ x ∈ done)) := by
        apply List.filter_congr
        intro x hx
        have hxt : x ≠ t := fun he => htts (he ▸ hx)
        simp [List.mem_append, hxt]
      refine ⟨?_, ?_⟩
      · rw [hs, hfilter, List.filter_cons]
        simp [hmem]
      · rw [hc, hfilter, List.filter_cons]
        simp only [decide_not]
        have hpt : decide (t ∈ done) = false := by simp [hmem]
        rw [hpt]
        simp [List.append_assoc]

/-- Two component equalities determine a workspace. -/
theorem ws_eq_of_parts (w : Workspace) (cps : List Checkpoint)
    (mf : Option EnsembleModel) (h1 : w.checkpoints = cps)
    (h2 : w.modelFile = mf) : w = ⟨cps, mf⟩ := by
  cases w
  subst h1
  subst h2
  rfl

/-- In a nodup list, filtering out the members of the first k positions
leaves exactly the positions from k on. -/
theorem filter_not_mem_take (l : List TemplateId) (k : ℕ) (h : l.Nodup) :
    l.filter (fun t => decide (¬ t ∈ l.take k)) = l.drop k := by
  have hsplit : l.filter (fun t => decide (¬ t ∈ l.take k)) =
      (l.take k ++ l.drop k).filter (fun t => decide (¬ t ∈ l.take k)) := by
    rw [List.take_append_drop]
  have hdisj : List.Disjoint (l.take k) (l.drop k) := by
    have hn := h
    rw [← List.take_append_drop k l] at hn
    exact (List.nodup_append.mp hn).2.2
  have h1 : (l.take k).filter (fun t => decide (¬ t ∈ l.take k)) = [] := by
    rw [List.filter_eq_nil_iff]
    intro a ha
    simp [ha]
  have h2 : (l.drop k).filter (fun t => decide (¬ t ∈ l.take k)) = l.drop k := by
    rw [List.filter_eq_self]
    intro a ha
    simp only [decide_eq_true_eq]
    exact fun hmem => hdisj hmem ha
  rw [hsplit, List.filter_append, h1, h2, List.nil_append]

/-- The fresh workspace is trivially faithful. -/
theorem faithful_empty (cfg : StudyConfig) (oracle : Oracle) :
    FaithfulWS cfg oracle emptyWorkspace := by
  intro c hc
  simp [emptyWorkspace] at hc

/-- The interrupted workspace after k templates holds exactly the first k
templates' checkpoints and no `model.p`. -/
theorem wsAfter_eq (cfg : StudyConfig) (oracle : Oracle) (k : ℕ)
    (hnd : cfg.templates.Nodup) :
    wsAfter cfg oracle k =
      ⟨(cfg.templates.take k).map (checkpointFor cfg oracle), none⟩ := by
  have hndk : (cfg.templates.take k).Nodup :=
    List.Nodup.sublist (List.take_sublist k cfg.templates) hnd
  have hc := (runTemplates_shape cfg oracle (cfg.templates.take k) [] none hndk).2
  have hfull : (cfg.templates.take k).filter (fun t => decide (¬ t ∈ ([] : List TemplateId))) =
      cfg.templates.take k := by
    rw [List.filter_eq_self]
    intro a _
    simp
  rw [hfull] at hc
  have hmf : (runTemplates cfg oracle (cfg.templates.take k)
      ⟨List.map (checkpointFor cfg oracle) [], none⟩).ws.modelFile = none :=
    runTemplates_modelFile cfg oracle _ _
  rw [wsAfter]
  exact ws_eq_of_parts _ _ _ (by simpa using hc) (by simpa using hmf)

/-- `run()` re-searches exactly the templates its controller pass
re-searches. -/
theorem run_searched (cfg : StudyConfig) (oracle : Oracle) (escore : EnsScore)
    (ws : Workspace) :
    (run cfg oracle escore ws).searched =
      (runTemplates cfg oracle cfg.templates ws).searched := by
  rw [run]
  by_cases hss : (survivors (runTemplates cfg oracle cfg.templates ws).results
      cfg.scoreThreshold).isEmpty
  · simp [hss]
  · simp [hss]

/-- Two faithful starting workspaces give `run()` the same returned result:
the per-template bests, hence the survivors and the ensemble, agree. -/
theorem run_result_of_faithful (cfg : StudyConfig) (oracle : Oracle)
    (escore : EnsScore) (ws1 ws2 : Workspace) (h1 : FaithfulWS cfg oracle ws1)
    (h2 : FaithfulWS cfg oracle ws2) :
    (run cfg oracle escore ws1).result = (run cfg oracle escore ws2).result := by
  have e1 := runTemplates_results cfg oracle cfg.templates ws1 h1
  have e2 := runTemplates_results cfg oracle cfg.templates ws2 h2
  rw [run, run, e1, e2]
  by_cases hss : (survivors
      (cfg.templates.map (fun t => (t, templateBest cfg oracle t)))
      cfg.scoreThreshold).isEmpty
  · simp [hss]
  · simp [hss]

/-- `run()` leaves the final workspace faithful. -/
theorem run_preserves_faithful (cfg : StudyConfig) (oracle : Oracle)
    (escore : EnsScore) (ws : Workspace) (h : FaithfulWS cfg oracle ws) :
    FaithfulWS cfg oracle (run cfg oracle escore ws).ws := by
  have hr := runTemplates_faithful cfg oracle cfg.templates ws h
  rw [run]
  by_cases hss : (survivors (runTemplates cfg oracle cfg.templates ws).results
      cfg.scoreThreshold).isEmpty
  · simpa [hss] using hr
  · simp only [hss]
    intro c hc hcomp
    exact hr c hc hcomp

/-- C1: resume equivalence.  For every study configuration over distinct
candidate templates, interrupting a run right after the k-th template's
checkpoint is written and re-running with the same configuration and
workspace returns the same final result as an uninterrupted run from a fresh
workspace, reuses the stored best trials of the completed first k templates,
and re-searches exactly the remaining templates (the fresh run searches them
all). -/
theorem study_resume_equivalence (cfg : StudyConfig) (oracle : Oracle)
    (escore : EnsScore) (k : ℕ) (hnd : cfg.templates.Nodup) :
    (run cfg oracle escore (wsAfter cfg oracle k)).result =
      (run cfg oracle escore emptyWorkspace).result
    ∧ (run cfg oracle escore (wsAfter cfg oracle k)).searched =
        cfg.templates.drop k
    ∧ (run cfg oracle escore emptyWorkspace).searched = cfg.templates := by
  have hfe := faithful_empty cfg oracle
  have hfk : FaithfulWS cfg oracle (wsAfter cfg oracle k) :=
    runTemplates_faithful cfg oracle _ _ hfe
  refine ⟨run_result_of_faithful cfg oracle escore _ _ hfk hfe, ?_, ?_⟩
  · rw [run_searched, wsAfter_eq cfg oracle k hnd]
    have hs := (runTemplates_shape cfg oracle cfg.templates
      (cfg.templates.take k) none hnd).1
    rw [hs, filter_not_mem_take cfg.templates k hnd]
  · rw [run_searched]
    have hs := (runTemplates_shape cfg oracle cfg.templates [] none hnd).1
    have hws : emptyWorkspace =
        (⟨List.map (checkpointFor cfg oracle) [], none⟩ : Workspace) := rfl
    rw [hws, hs, List.filter_eq_self]
    intro a _
    simp

/-- Witness for C1 at a concrete three-template study interrupted after the
first template. -/
theorem study_resume_equivalence_witness :
    (run ⟨[0, 1, 2], 2, none, 1/2, 7, 3, 3⟩
        (fun _ t => [⟨some ⟨(t : ℚ), 0⟩, 1⟩]) (fun c => (c.sum : ℚ))
        (wsAfter ⟨[0, 1, 2], 2, none, 1/2, 7, 3, 3⟩
          (fun _ t => [⟨some ⟨(t : ℚ), 0⟩, 1⟩]) 1)).result =
      (run ⟨[0, 1, 2], 2, none, 1/2, 7, 3, 3⟩
        (fun _ t => [⟨some ⟨(t : ℚ), 0⟩, 1⟩]) (fun c => (c.sum : ℚ))
        emptyWorkspace).result
    ∧ (run ⟨[0, 1, 2], 2, none, 1/2, 7, 3, 3⟩
        (fun _ t => [⟨some ⟨(t : ℚ), 0⟩, 1⟩]) (fun c => (c.sum : ℚ))
        (wsAfter ⟨[0, 1, 2], 2, none, 1/2, 7, 3, 3⟩
          (fun _ t => [⟨some ⟨(t : ℚ), 0⟩, 1⟩]) 1)).searched =
        ([0, 1, 2] : List TemplateId).drop 1
    ∧ (run ⟨[0, 1, 2], 2, none, 1/2, 7, 3, 3⟩
        (fun _ t => [⟨some ⟨(t : ℚ), 0⟩, 1⟩]) (fun c => (c.sum : ℚ))
        emptyWorkspace).searched = [0, 1, 2] :=
  study_resume_equivalence ⟨[0, 1, 2], 2, none, 1/2, 7, 3, 3⟩
    (fun _ t => [⟨some ⟨(t : ℚ), 0⟩, 1⟩]) (fun c => (c.sum : ℚ)) 1 (by decide)

/-- C6: determinism under a fixed seed, observed through the persistent
workspace: a second `run()` of the same study over the workspace the first
run left behind — which resumes from the stored checkpoints — returns the
same result (hence the same best template and the same final ensemble
weights) as the first run. -/
theorem study_rerun_determinism (cfg : StudyConfig) (oracle : Oracle)
    (escore : EnsScore) :
    (run cfg oracle escore (run cfg oracle escore emptyWorkspace).ws).result =
      (run cfg oracle escore emptyWorkspace).result := by
  have hfe := faithful_empty cfg oracle
  exact run_result_of_faithful cfg oracle escore _ _
    (run_preserves_faithful cfg oracle escore emptyWorkspace hfe) hfe

/-- C3: when every candidate template's best trial falls below the score
threshold, `run()` returns the no-qualifying-pipeline error and writes no
`model.p` to the workspace. -/
theorem study_threshold_error_no_model (cfg : StudyConfig) (oracle : Oracle)
    (escore : EnsScore) (h : allBelowThreshold cfg oracle = true) :
    (run cfg oracle escore emptyWorkspace).result =
      .error .noQualifyingPipeline
    ∧ (run cfg oracle escore emptyWorkspace).ws.modelFile = none := by
  have hres := runTemplates_results cfg oracle cfg.templates emptyWorkspace
    (faithful_empty cfg oracle)
  have hsurv : survivors
      (cfg.templates.map (fun t => (t, templateBest cfg oracle t)))
      cfg.scoreThreshold = [] := by
    rw [survivors, List.filterMap_eq_nil_iff]
    intro r hr
    obtain ⟨t, ht, rfl⟩ := List.mem_map.mp hr
    rw [allBelowThreshold, List.all_eq_true] at h
    have hbel := h t ht
    cases hb : templateBest cfg oracle t with
    | none => simp
    | some tr =>
      rw [hb] at hbel
      simp at hbel
      simp [hbel]
  constructor
  · rw [run, hres, hsurv]
    rfl
  · rw [run, hres, hsurv]
    exact runTemplates_modelFile cfg oracle cfg.templates emptyWorkspace

/-- Witness for C3 at a concrete study whose only achievable score (0) falls
below the configured threshold (1). -/
theorem study_threshold_error_no_model_witness :
    (run ⟨[0, 1], 5, none, 1, 0, 3, 3⟩
        (fun _ _ => [⟨some ⟨0, 0⟩, 1⟩]) (fun c => (c.sum : ℚ))
        emptyWorkspace).result = .error .noQualifyingPipeline
    ∧ (run ⟨[0, 1], 5, none, 1, 0, 3, 3⟩
        (fun _ _ => [⟨some ⟨0, 0⟩, 1⟩]) (fun c => (c.sum : ℚ))
        emptyWorkspace).ws.modelFile = none :=
  study_threshold_error_no_model ⟨[0, 1], 5, none, 1, 0, 3, 3⟩
    (fun _ _ => [⟨some ⟨0, 0⟩, 1⟩]) (fun c => (c.sum : ℚ)) (by decide)

/-- Adding a copy never changes the count vector's length. -/
theorem bumpAt_length (counts : List ℕ) (i : ℕ) :
    (bumpAt counts i).length = counts.length := by
  rw [bumpAt, List.length_set]

/-- Adding a copy never decreases the total copy count. -/
theorem bumpAt_sum_le : ∀ (counts : List ℕ) (i : ℕ),
    counts.sum ≤ (bumpAt counts i).sum := by
  intro counts
  induction counts with
  | nil => intro i; simp [bumpAt]
  | cons c cs ih =>
    intro i
    cases i with
    | zero =>
      have hb : bumpAt (c :: cs) 0 = (c + 1) :: cs := rfl
      rw [hb, List.sum_cons, List.sum_cons]
      omega
    | succ j =>
      have hb : bumpAt (c :: cs) (j + 1) = c :: bumpAt cs j := rfl
      rw [hb, List.sum_cons, List.sum_cons]
      exact Nat.add_le_add_left (ih j) c

/-- Adding a copy at a valid index increases the total copy count by one. -/
theorem bumpAt_sum_of_lt : ∀ (counts : List ℕ) (i : ℕ), i < counts.length →
    (bumpAt counts i).sum = counts.sum + 1 := by
  intro counts
  induction counts with
  | nil => intro i hi; simp at hi
  | cons c cs ih =>
    intro i hi
    cases i with
    | zero =>
      have hb : bumpAt (c :: cs) 0 = (c + 1) :: cs := rfl
      rw [hb, List.sum_cons, List.sum_cons]
      omega
    | succ j =>
      have hb : bumpAt (c :: cs) (j + 1) = c :: bumpAt cs j := rfl
      rw [hb, List.sum_cons, List.sum_cons,
        ih j (by simpa [Nat.succ_lt_succ_iff] using hi)]
      omega

/-- Comparing an addition always yields an addition. -/
theorem considerAddition_ne_none (escore : EnsScore) (counts : List ℕ)
    (i : ℕ) (acc : Option (ℕ × ℚ)) :
    considerAddition escore counts i acc ≠ none := by
  cases acc with
  | none => simp [considerAddition]
  | some p =>
    obtain ⟨j, sj⟩ := p
    rw [considerAddition]
    split_ifs <;> simp

/-- An addition kept by the comparison is the scanned one or the
accumulator's. -/
theorem considerAddition_mem (escore : EnsScore) (counts : List ℕ) (i : ℕ)
    (acc : Option (ℕ × ℚ)) (j : ℕ) (s : ℚ)
    (h : considerAddition escore counts i acc = some (j, s)) :
    j = i ∨ acc = some (j, s) := by
  cases acc with
  | none =>
    rw [considerAddition, Option.some_inj] at h
    exact Or.inl (congrArg Prod.fst h).symm
  | some p =>
    obtain ⟨j0, s0⟩ := p
    rw [considerAddition] at h
    split_ifs at h with himp
    · rw [Option.some_inj] at h
      exact Or.inl (congrArg Prod.fst h).symm
    · exact Or.inr h

/-- An addition returned by the scan is the accumulator's or comes from the
scanned index list. -/
theorem bestAdditionGo_mem (escore : EnsScore) (maxReps : ℕ) (counts : List ℕ) :
    ∀ (is : List ℕ) (acc : Option (ℕ × ℚ)) (j : ℕ) (s : ℚ),
      bestAdditionGo escore maxReps counts is acc = some (j, s) →
      acc = some (j, s) ∨ j ∈ is := by
  intro is
  induction is with
  | nil => intro acc j s h; exact Or.inl h
  | cons i is ih =>
    intro acc j s h
    rw [bestAdditionGo] at h
    split_ifs at h with hc
    · rcases ih _ j s h with h' | h'
      · rcases considerAddition_mem escore counts i acc j s h' with h'' | h''
        · exact Or.inr (by rw [h'']; exact List.mem_cons_self i is)
        · exact Or.inl h''
      · exact Or.inr (List.mem_cons_of_mem i h')
    · rcases ih _ j s h with h' | h'
      · exact Or.inl h'
      · exact Or.inr (List.mem_cons_of_mem i h')

/-- The scan never discards a found addition. -/
theorem bestAdditionGo_ne_none (escore : EnsScore) (maxReps : ℕ)
    (counts : List ℕ) :
    ∀ (is : List ℕ) (acc : Option (ℕ × ℚ)), acc ≠ none →
      bestAdditionGo escore maxReps counts is acc ≠ none := by
  intro is
  induction is with
  | nil => intro acc h; exact h
  | cons i is ih =>
    intro acc h
    rw [bestAdditionGo]
    split_ifs with hc
    · exact ih _ (considerAddition_ne_none escore counts i acc)
    · exact ih _ h

/-- The scan finds an addition whenever some scanned index is under the
repeat cap. -/
theorem bestAdditionGo_some_of_mem (escore : EnsScore) (maxReps : ℕ)
    (counts : List ℕ) :
    ∀ (is : List ℕ) (acc : Option (ℕ × ℚ)) (i : ℕ), i ∈ is →
      counts.getD i 0 < maxReps →
      bestAdditionGo escore maxReps counts is acc ≠ none := by
  intro is
  induction is with
  | nil => intro acc i hi; simp at hi
  | cons i0 is ih =>
    intro acc i hi hcap
    rw [bestAdditionGo]
    rcases List.mem_cons.mp hi with hi | hi
    · subst hi
      rw [if_pos hcap]
      exact bestAdditionGo_ne_none escore maxReps counts is _
        (considerAddition_ne_none escore counts i acc)
    · split_ifs with hc
      · exact ih _ i hi hcap
      · exact ih _ i hi hcap

/-- A returned best addition indexes into the count vector. -/
theorem bestAddition_some_lt (escore : EnsScore) (maxReps : ℕ)
    (counts : List ℕ) (i : ℕ) (s : ℚ)
    (h : bestAddition escore maxReps counts = some (i, s)) :
    i < counts.length := by
  rw [bestAddition] at h
  rcases bestAdditionGo_mem escore maxReps counts _ none i s h with h' | h'
  · exact absurd h' (by simp)
  · exact List.mem_range.mp h'

/-- Greedy forward-selection never decreases the total copy count. -/
theorem greedyGo_sum_le (escore : EnsScore) (maxReps : ℕ) :
    ∀ (fuel : ℕ) (counts : List ℕ) (cur : ℚ),
      counts.sum ≤ (greedyGo escore maxReps fuel counts cur).sum := by
  intro fuel
  induction fuel with
  | zero => intro counts cur; exact le_refl _
  | succ f ih =>
    intro counts cur
    cases hba : bestAddition escore maxReps counts with
    | none => simp [greedyGo, hba]
    | some p =>
      obtain ⟨i, s⟩ := p
      simp only [greedyGo, hba]
      split_ifs with hadd
      · exact le_trans (bumpAt_sum_le counts i) (ih (bumpAt counts i) s)
      · exact le_refl _

/-- Greedy forward-selection never changes the count vector's length. -/
theorem greedyGo_length (escore : EnsScore) (maxReps : ℕ) :
    ∀ (fuel : ℕ) (counts : List ℕ) (cur : ℚ),
      (greedyGo escore maxReps fuel counts cur).length = counts.length := by
  intro fuel
  induction fuel with
  | zero => intro counts cur; rfl
  | succ f ih =>
    intro counts cur
    cases hba : bestAddition escore maxReps counts with
    | none => simp [greedyGo, hba]
    | some p =>
      obtain ⟨i, s⟩ := p
      simp only [greedyGo, hba]
      split_ifs with hadd
      · rw [ih (bumpAt counts i) s, bumpAt_length]
      · rfl

/-- Over a nonempty candidate set with a positive repeat cap and positive
size cap, greedy forward-selection selects at least one copy. -/
theorem greedyGo_sum_pos (escore : EnsScore) (maxReps fuel n : ℕ)
    (hf : 1 ≤ fuel) (hn : 1 ≤ n) (hr : 1 ≤ maxReps) (cur : ℚ) :
    1 ≤ (greedyGo escore maxReps fuel (List.replicate n 0) cur).sum := by
  cases fuel with
  | zero => omega
  | succ f =>
    have hzero : (List.replicate n 0).sum = 0 := by simp
    have hget : (List.replicate n 0).getD 0 0 = 0 := by
      cases n with
      | zero => omega
      | succ m => rfl
    have hne : bestAddition escore maxReps (List.replicate n 0) ≠ none := by
      rw [bestAddition, List.length_replicate]
      exact bestAdditionGo_some_of_mem escore maxReps _ _ none 0
        (List.mem_range.mpr (by omega)) (by omega)
    cases hba : bestAddition escore maxReps (List.replicate n 0) with
    | none => exact absurd hba hne
    | some p =>
      obtain ⟨i, s⟩ := p
      simp only [greedyGo, hba]
      rw [if_pos (Or.inl hzero)]
      have hi : i < (List.replicate n 0).length :=
        bestAddition_some_lt escore maxReps _ i s hba
      have h1 : (bumpAt (List.replicate n 0) i).sum = 1 := by
        rw [bumpAt_sum_of_lt _ _ hi, hzero]
      calc 1 = (bumpAt (List.replicate n 0) i).sum := h1.symm
        _ ≤ _ := greedyGo_sum_le escore maxReps f (bumpAt (List.replicate n 0) i) s

/-- Normalized weights have the same arity as the count vector. -/
theorem weightsOf_length (counts : List ℕ) :
    (weightsOf counts).length = counts.length := by
  simp [weightsOf]

/-- Normalized weights of a selection with at least one copy sum to exactly
one. -/
theorem weightsOf_sum (counts : List ℕ) (h : counts.sum ≠ 0) :
    (weightsOf counts).sum = 1 := by
  rw [weightsOf]
  have hdiv : ∀ (l : List ℕ) (q : ℚ),
      (l.map (fun c : ℕ => (c : ℚ) / q)).sum = ((l.sum : ℕ) : ℚ) / q := by
    intro l q
    induction l with
    | nil => simp
    | cons a l ihl =>
      rw [List.map_cons, List.sum_cons, ihl, List.sum_cons]
      push_cast
      rw [add_div]
  rw [hdiv, div_self]
  exact_mod_cast h

/-- Every normalized weight is non-negative. -/
theorem weightsOf_nonneg (counts : List ℕ) (w : ℚ) (h : w ∈ weightsOf counts) :
    0 ≤ w := by
  rw [weightsOf] at h
  obtain ⟨c, _, rfl⟩ := List.mem_map.mp h
  exact div_nonneg (Nat.cast_nonneg c) (Nat.cast_nonneg _)

/-- The returned ensemble's weight column is exactly the normalized weight
vector of the greedily selected copy counts. -/
theorem ensembleSelect_weights (cands : List (TemplateId × Trial))
    (escore : EnsScore) (maxSize maxReps : ℕ) :
    (ensembleSelect cands escore maxSize maxReps).members.map (fun m => m.2) =
      weightsOf (greedyGo escore maxReps maxSize (List.replicate cands.length 0)
        (escore (List.replicate cands.length 0))) := by
  simp only [ensembleSelect]
  rw [List.map_map]
  have hcomp : ((fun m : TemplateId × ℚ => m.2) ∘
      (fun z : (TemplateId × Trial) × ℚ => (z.1.1, z.2))) = Prod.snd := rfl
  rw [hcomp]
  apply List.map_snd_zip
  rw [weightsOf_length, greedyGo_length, List.length_replicate]

/-- C2: for every non-empty surviving candidate set (under any positive
ensemble-size and repeat caps), the Ensemble Selector's returned Ensemble
Model has every weight non-negative and the weights summing to exactly one
after renormalization. -/
theorem ensemble_weights_sum_to_one (cands : List (TemplateId × Trial))
    (escore : EnsScore) (maxSize maxReps : ℕ) (hc : cands ≠ [])
    (hs : 1 ≤ maxSize) (hr : 1 ≤ maxReps) :
    ((ensembleSelect cands escore maxSize maxReps).members.map
      (fun m => m.2)).sum = 1
    ∧ ∀ m ∈ (ensembleSelect cands escore maxSize maxReps).members, 0 ≤ m.2 := by
  have hn : 1 ≤ cands.length := List.length_pos.mpr hc
  have hpos := greedyGo_sum_pos escore maxReps maxSize cands.length hs hn hr
    (escore (List.replicate cands.length 0))
  constructor
  · rw [ensembleSelect_weights]
    exact weightsOf_sum _ (by omega)
  · intro m hm
    have hw : m.2 ∈ (ensembleSelect cands escore maxSize maxReps).members.map
        (fun m => m.2) := List.mem_map_of_mem _ hm
    rw [ensembleSelect_weights] at hw
    exact weightsOf_nonneg _ _ hw

/-- Witness for C2 at a concrete singleton surviving candidate set. -/
theorem ensemble_weights_sum_to_one_witness :
    ((ensembleSelect [(0, ⟨0, ⟨1, 0⟩, true, 1⟩)] (fun c => (c.sum : ℚ))
        1 1).members.map (fun m => m.2)).sum = 1
    ∧ ∀ m ∈ (ensembleSelect [(0, ⟨0, ⟨1, 0⟩, true, 1⟩)] (fun c => (c.sum : ℚ))
        1 1).members, 0 ≤ m.2 :=
  ensemble_weights_sum_to_one [(0, ⟨0, ⟨1, 0⟩, true, 1⟩)] (fun c => (c.sum : ℚ))
    1 1 (by simp) (le_refl 1) (le_refl 1)

/-- Decoding inverts encoding on every fitted parameter list. -/
theorem decodeParams_encodeParams : ∀ (ps : Params),
    decodeParams (encodeParams ps) = .ok ps := by
  intro ps
  induction ps with
  | nil => rfl
  | cons z zs ih =>
    rw [encodeParams, encodeInt]
    simp only [List.cons_append, List.nil_append]
    rw [decodeParams, ih]
    have hval : (if (if z < 0 then (1 : ℕ) else 0) = 0 then ((z.natAbs : ℤ))
        else -(z.natAbs : ℤ)) = z := by
      by_cases hz : z < 0
      · rw [if_pos hz, if_neg (by decide : ¬ (1 : ℕ) = 0)]
        omega
      · rw [if_neg hz, if_pos rfl]
        omega
    rw [hval]

/-- C8 (amended): every registered plugin whose `save` succeeds on a fitted
state round-trips — loading the saved bytes restores a state whose
predict/transform output on any input is identical to the original's.  (The
runtime-registered tutorial plugin, whose `save` raises, is outside the
guarded law.) -/
theorem plugin_roundtrip_when_serializable :
    ∀ e ∈ registryAfterTutorialAdd.entries, ∀ (ps : Params) (bs : List ℕ)
      (x : List ℚ), PluginImpl.save e.2 ps = .ok bs →
      ∃ qs, PluginImpl.load e.2 bs = .ok qs ∧
        PluginImpl.predictFn e.2 qs x = PluginImpl.predictFn e.2 ps x := by
  intro e he ps bs x hsave
  have hmem : e = ("linear", linearPlugin) ∨ e = ("scaler", scalerPlugin) ∨
      e = ("custom_select_fpr", customSelectFpr) := by
    simpa [registryAfterTutorialAdd, defaultPreprocessors] using he
  rcases hmem with rfl | rfl | rfl
  · rw [show PluginImpl.save ("linear", linearPlugin).2 ps =
      Except.ok (encodeParams ps) from rfl] at hsave
    injection hsave with hbs
    subst hbs
    exact ⟨ps, decodeParams_encodeParams ps, rfl⟩
  · rw [show PluginImpl.save ("scaler", scalerPlugin).2 ps =
      Except.ok (encodeParams ps) from rfl] at hsave
    injection hsave with hbs
    subst hbs
    exact ⟨ps, decodeParams_encodeParams ps, rfl⟩
  · simp [customSelectFpr] at hsave

/-- Witness for C8's amended law: the built-in linear plugin at the fitted
state [2, -3] and input [1, 1]. -/
theorem plugin_roundtrip_when_serializable_witness :
    ∃ qs, PluginImpl.load ("linear", linearPlugin).2 (encodeParams [2, -3]) =
        .ok qs
      ∧ PluginImpl.predictFn ("linear", linearPlugin).2 qs [1, 1] =
        PluginImpl.predictFn ("linear", linearPlugin).2 [2, -3] [1, 1] :=
  plugin_roundtrip_when_serializable ("linear", linearPlugin)
    (by simp [registryAfterTutorialAdd, defaultPreprocessors]) [2, -3]
    (encodeParams [2, -3]) [1, 1] rfl

/-- C8 counterexample: the collection populated by the tutorial notebook
contains the runtime-registered plugin `custom_select_fpr`, whose `save`
raises the NotImplemented placeholder (here: on the empty fitted state and
empty input), so the unrestricted round-trip law over every registered
plugin is false. -/
theorem plugin_roundtrip_counterexample :
    ¬ ∀ e ∈ registryAfterTutorialAdd.entries, RoundTrips e.2 := by
  intro h
  have hmem : ("custom_select_fpr", customSelectFpr) ∈
      registryAfterTutorialAdd.entries := by
    simp [registryAfterTutorialAdd, defaultPreprocessors]
  obtain ⟨bs, qs, hsave, _, _⟩ :=
    h ("custom_select_fpr", customSelectFpr) hmem [] []
  simp [customSelectFpr] at hsave

/-- C10: a successful runtime registration makes the plugin retrievable by
name and its name appear in the collection's listing, whatever the registry
already contained from its population at process start. -/
theorem registry_add_then_get (r : Registry) (name : String) (p : PluginImpl)
    (r' : Registry) (h : r.add name p = .ok r') :
    r'.getPlugin name = some p ∧ name ∈ r'.names := by
  rw [Registry.add] at h
  split_ifs at h with hdup
  · have hr' : r' = ⟨r.entries ++ [(name, p)]⟩ := by
      injection h with h
      exact h.symm
    subst hr'
    have hnone : r.entries.find? (fun e => e.1 == name) = none := by
      rw [List.find?_eq_none]
      intro e hee hbe
      exact hdup (List.any_eq_true.mpr ⟨e, hee, hbe⟩)
    constructor
    · rw [Registry.getPlugin]
      simp only [List.find?_append, hnone, Option.none_or]
      simp [List.find?_cons]
    · rw [Registry.names]
      simp

/-- Witness for C10: the tutorial's registration of `custom_select_fpr` into
the default preprocessor collection. -/
theorem registry_add_then_get_witness :
    Registry.getPlugin registryAfterTutorialAdd "custom_select_fpr" =
      some customSelectFpr
    ∧ "custom_select_fpr" ∈ Registry.names registryAfterTutorialAdd :=
  registry_add_then_get defaultPreprocessors "custom_select_fpr"
    customSelectFpr registryAfterTutorialAdd (by rfl)

end AutoPrognosis
